import Mathlib

/-!
Verification of the b2a-toolkit call audit and notification subsystem.

This development gives a shallow embedding, in Lean 4, of the core data model
and operations of the repository:

  * `src/toolkit/logging.py`  — the call log store (`ToolLogger.log_call`,
    `ToolLogger.get_logs`, `ToolLogger.watch_logs`);
  * `src/toolkit/replay.py`   — the replay engine (`ReplayManager.get_call`,
    `ReplayManager.replay_call`, `compare_outputs`);
  * `src/toolkit/webhooks.py` — the webhook registration store and dispatcher
    (`WebhookManager.add_webhook`, `list_webhooks`, `_sign_payload`,
    `_send_webhook`, `trigger`);
  * `src/toolkit/core.py`     — the executor path `Tool.execute` that feeds
    the log store.

Conventions of the embedding:

  * Python/JSON values are modelled by the inductive type `JValue`
    (`None`, `int`, `str`, `list`, `dict`).  Python's `==` on such values is
    the function `pyEq`; Python truthiness is `truthy`.
  * SQLite tables are modelled as Lean lists of rows, in rowid (insertion)
    order.  The `tool_calls` table is a `List Row`; the `webhooks` table a
    `List WebhookConfig`.  SQL text comparison on the ISO-8601 `timestamp`
    column is memcmp, i.e. lexicographic order on the characters, so the
    column is modelled as `List Char` with its lexicographic linear order.
  * A SQLite `INSERT` that hits the `call_id` primary key raises
    `sqlite3.IntegrityError` (a `sqlite3.Error`); fallible operations return
    `Except`.  Code that catches an exception and returns normally is
    embedded as a total function that maps the error branch back to a
    normal result.
  * `hashlib`/`hmac` library calls are embedded by an executable
    implementation of SHA-256 and HMAC-SHA256 over byte lists (`List Nat`,
    each entry < 256), and `json.dumps` by an executable serializer.
-/

/-! ## Python/JSON values -/

/-- A Python value of JSON shape: `None`, `int`, `str`, `list`, `dict`
(string-keyed, in insertion order, as CPython dicts are ordered). -/
inductive JValue where
  | null
  | int (n : Int)
  | str (s : String)
  | arr (items : List JValue)
  | obj (fields : List (String × JValue))
deriving Repr, Inhabited

/-- Lookup `d[k]` in a dict modelled as an association list: the first
binding of `k` (in a genuine dict, the only one). -/
def lookupField (k : String) : List (String × JValue) → Option JValue
  | [] => none
  | (k', v) :: rest => if k' = k then some v else lookupField k rest

/-- Python truthiness (`bool(v)`) on JSON-shaped values: `None`, `0`, `""`,
`[]` and `{}` are falsy, everything else truthy. -/
def truthy : JValue → Bool
  | .null => false
  | .int n => n != 0
  | .str s => !(s = "")
  | .arr xs => !xs.isEmpty
  | .obj fs => !fs.isEmpty

mutual

/-- Python `==` on JSON-shaped values.  Dicts compare equal when they have
the same number of keys and every binding of the left dict appears (up to
`pyEq`) in the right one; order is irrelevant.  Lists compare pointwise. -/
def pyEq : JValue → JValue → Bool
  | .null, .null => true
  | .int a, .int b => a == b
  | .str a, .str b => a == b
  | .arr xs, .arr ys => pyEqList xs ys
  | .obj fs, .obj gs => fs.length == gs.length && pyEqFields fs gs
  | _, _ => false

/-- Pointwise `pyEq` on lists of equal length (Python list `==`). -/
def pyEqList : List JValue → List JValue → Bool
  | [], [] => true
  | x :: xs, y :: ys => pyEq x y && pyEqList xs ys
  | _, _ => false

/-- Every binding on the left has a `pyEq`-equal binding on the right. -/
def pyEqFields : List (String × JValue) → List (String × JValue) → Bool
  | [], _ => true
  | (k, v) :: fs, gs =>
    (match lookupField k gs with
     | some w => pyEq v w
     | none => false) && pyEqFields fs gs

end

/-- The keys of an association-list dict are pairwise distinct. -/
def nodupKeys : List (String × JValue) → Bool
  | [] => true
  | (k, _) :: fs => !(fs.any (fun p => p.1 = k)) && nodupKeys fs

mutual

/-- Well-formedness of a `JValue` as the image of a Python value: every
dict, at every depth, has pairwise-distinct keys (real dicts cannot have
duplicate keys). -/
def WFb : JValue → Bool
  | .null => true
  | .int _ => true
  | .str _ => true
  | .arr xs => WFbList xs
  | .obj fs => nodupKeys fs && WFbFields fs

def WFbList : List JValue → Bool
  | [] => true
  | x :: xs => WFb x && WFbList xs

def WFbFields : List (String × JValue) → Bool
  | [] => true
  | (_, v) :: fs => WFb v && WFbFields fs

end

/-- Python `d.pop(k, None)` on a dict modelled as an association list: drop the
first binding of `k`, keep everything else. -/
def popField (k : String) : List (String × JValue) → List (String × JValue)
  | [] => []
  | (k', v) :: rest => if k' = k then rest else (k', v) :: popField k rest

/-- Embedding of `compare_outputs` (`src/toolkit/replay.py`).  The Python
function shallow-copies each argument (or takes `{}` when the argument is
falsy — for a dict argument the two branches produce the same bindings),
pops `created_at` from each copy, and compares the copies with `==`.  The
arguments themselves are never operated on, so they are unmutated by
construction. -/
def compare_outputs (original_output replay_output : List (String × JValue)) : Bool :=
  let original := popField "created_at" original_output
  let replay := popField "created_at" replay_output
  pyEq (.obj original) (.obj replay)

/-- The specification's notion of structural equality, written from the
spec's words: "same keys, same values, recursively for nested structures".
Dicts must have the same key set and structurally equal values at every
common key; lists must agree pointwise. -/
inductive SameStruct : JValue → JValue → Prop where
  | null : SameStruct .null .null
  | int (n : Int) : SameStruct (.int n) (.int n)
  | str (s : String) : SameStruct (.str s) (.str s)
  | arr {xs ys : List JValue} :
      xs.length = ys.length →
      (∀ i (h1 : i < xs.length) (h2 : i < ys.length),
        SameStruct (xs.get ⟨i, h1⟩) (ys.get ⟨i, h2⟩)) →
      SameStruct (.arr xs) (.arr ys)
  | obj {fs gs : List (String × JValue)} :
      (∀ k, (lookupField k fs).isSome ↔ (lookupField k gs).isSome) →
      (∀ k v w, lookupField k fs = some v → lookupField k gs = some w →
        SameStruct v w) →
      SameStruct (.obj fs) (.obj gs)

/-! ## JSON serialization (`json.dumps` with default separators)

`json.dumps` is CPython library code; the embedding implements the default
serialization executably, with the default `ensure_ascii=True` escaping:
quote and backslash escaped, the short escapes for the common control
characters, `\uXXXX` for the remaining control characters and for every
non-ASCII character (as a surrogate pair beyond the basic plane). -/

/-- The sixteen lowercase hex digits. -/
def hexDigits : List Char := "0123456789abcdef".toList

/-- Lowercase hex digit of a value < 16. -/
def hexChar (n : Nat) : Char := hexDigits.getD n '0'

/-- A `\uXXXX` escape: four lowercase hex digits of a value < 65536. -/
def uEscape4 (n : Nat) : String :=
  "\\u" ++ String.mk [hexChar (n / 4096 % 16), hexChar (n / 256 % 16),
    hexChar (n / 16 % 16), hexChar (n % 16)]

/-- Escape one character of a JSON string literal as CPython's
`py_encode_basestring_ascii` does (`json.dumps` default): `"` and `\`
escaped, short escapes for backspace, tab, newline, form feed and
carriage return, printable ASCII verbatim, everything else `\uXXXX`
(a surrogate pair for codepoints above 0xFFFF). -/
def jsonEscapeChar (c : Char) : String :=
  let n := c.toNat
  if c = '"' then "\\\""
  else if c = '\\' then "\\\\"
  else if c = '\n' then "\\n"
  else if c = '\t' then "\\t"
  else if c = '\r' then "\\r"
  else if n = 8 then "\\b"
  else if n = 12 then "\\f"
  else if n < 32 then uEscape4 n
  else if n ≤ 126 then String.singleton c
  else if n ≤ 65535 then uEscape4 n
  else uEscape4 (55296 + (n - 65536) / 1024) ++ uEscape4 (56320 + (n - 65536) % 1024)

/-- A JSON string literal: double quotes around the escaped characters. -/
def jsonQuote (s : String) : String :=
  "\"" ++ String.join (s.toList.map jsonEscapeChar) ++ "\""

mutual

/-- Serialization `json.dumps(v)` with the default separators `", "` and `": "`. -/
def jsonDumps : JValue → String
  | .null => "null"
  | .int n => toString n
  | .str s => jsonQuote s
  | .arr xs => "[" ++ jsonDumpsList xs ++ "]"
  | .obj fs => "\x7b" ++ jsonDumpsFields fs ++ "\x7d"

def jsonDumpsList : List JValue → String
  | [] => ""
  | [x] => jsonDumps x
  | x :: xs => jsonDumps x ++ ", " ++ jsonDumpsList xs

def jsonDumpsFields : List (String × JValue) → String
  | [] => ""
  | [(k, v)] => jsonQuote k ++ ": " ++ jsonDumps v
  | (k, v) :: fs => jsonQuote k ++ ": " ++ jsonDumps v ++ ", " ++ jsonDumpsFields fs

end

/-! ## Bytes, UTF-8, SHA-256 and HMAC-SHA256

`str.encode()`, `hashlib.sha256` and `hmac.new(..., hashlib.sha256)` are
CPython library code; the embedding implements them executably over byte
lists (`List Nat`, each entry < 256). -/

/-- UTF-8 encoding of one character (`str.encode()` per character). -/
def utf8EncodeChar (c : Char) : List Nat :=
  let n := c.toNat
  if n < 0x80 then [n]
  else if n < 0x800 then
    [0xC0 ||| (n >>> 6), 0x80 ||| (n &&& 0x3F)]
  else if n < 0x10000 then
    [0xE0 ||| (n >>> 12), 0x80 ||| ((n >>> 6) &&& 0x3F), 0x80 ||| (n &&& 0x3F)]
  else
    [0xF0 ||| (n >>> 18), 0x80 ||| ((n >>> 12) &&& 0x3F),
     0x80 ||| ((n >>> 6) &&& 0x3F), 0x80 ||| (n &&& 0x3F)]

/-- Encoding `s.encode()`: UTF-8 bytes of a string. -/
def utf8Bytes (s : String) : List Nat :=
  (s.toList.map utf8EncodeChar).flatten

/-- Truncate to a 32-bit word. -/
def w32 (n : Nat) : Nat := n % 4294967296

/-- Right rotation of a 32-bit word. -/
def rotr32 (n x : Nat) : Nat := w32 ((x >>> n) ||| (x <<< (32 - n)))

/-- SHA-256 Σ₀. -/
def bigSigma0 (x : Nat) : Nat := rotr32 2 x ^^^ rotr32 13 x ^^^ rotr32 22 x

/-- SHA-256 Σ₁. -/
def bigSigma1 (x : Nat) : Nat := rotr32 6 x ^^^ rotr32 11 x ^^^ rotr32 25 x

/-- SHA-256 σ₀. -/
def smallSigma0 (x : Nat) : Nat := rotr32 7 x ^^^ rotr32 18 x ^^^ (x >>> 3)

/-- SHA-256 σ₁. -/
def smallSigma1 (x : Nat) : Nat := rotr32 17 x ^^^ rotr32 19 x ^^^ (x >>> 10)

/-- SHA-256 choice function. -/
def shaCh (x y z : Nat) : Nat := (x &&& y) ^^^ ((x ^^^ 4294967295) &&& z)

/-- SHA-256 majority function. -/
def shaMaj (x y z : Nat) : Nat := (x &&& y) ^^^ (x &&& z) ^^^ (y &&& z)

/-- The 64 SHA-256 round constants. -/
def shaK : List Nat :=
  [1116352408, 1899447441, 3049323471, 3921009573, 961987163,
   1508970993, 2453635748, 2870763221, 3624381080, 310598401,
   607225278, 1426881987, 1925078388, 2162078206, 2614888103,
   3248222580, 3835390401, 4022224774, 264347078, 604807628,
   770255983, 1249150122, 1555081692, 1996064986, 2554220882,
   2821834349, 2952996808, 3210313671, 3336571891, 3584528711,
   113926993, 338241895, 666307205, 773529912, 1294757372,
   1396182291, 1695183700, 1986661051, 2177026350, 2456956037,
   2730485921, 2820302411, 3259730800, 3345764771, 3516065817,
   3600352804, 4094571909, 275423344, 430227734, 506948616,
   659060556, 883997877, 958139571, 1322822218, 1537002063,
   1747873779, 1955562222, 2024104815, 2227730452, 2361852424,
   2428436474, 2756734187, 3204031479, 3329325298]

/-- The SHA-256 state: eight 32-bit words. -/
structure Hash8 where
  a : Nat
  b : Nat
  c : Nat
  d : Nat
  e : Nat
  f : Nat
  g : Nat
  hh : Nat
deriving Repr, DecidableEq

/-- The SHA-256 initial hash value. -/
def shaH0 : Hash8 :=
  ⟨1779033703, 3144134277, 1013904242, 2773480762,
   1359893119, 2600822924, 528734635, 1541459225⟩

/-- SHA-256 message padding: `0x80`, zeros to 56 mod 64, then the bit
length as eight big-endian bytes. -/
def sha256Pad (msg : List Nat) : List Nat :=
  let len := msg.length
  let bitLen := len * 8
  let padZeros := (119 - len % 64) % 64
  msg ++ [0x80] ++ List.replicate padZeros 0 ++
    [(bitLen >>> 56) % 256, (bitLen >>> 48) % 256, (bitLen >>> 40) % 256,
     (bitLen >>> 32) % 256, (bitLen >>> 24) % 256, (bitLen >>> 16) % 256,
     (bitLen >>> 8) % 256, bitLen % 256]

/-- Big-endian 4-byte groups to 32-bit words. -/
def bytesToWords : List Nat → List Nat
  | a :: b :: c :: d :: rest => (((a * 256 + b) * 256 + c) * 256 + d) :: bytesToWords rest
  | _ => []

/-- Split a byte list into 64-byte chunks. -/
def chunk64 (l : List Nat) : List (List Nat) :=
  if _h : l = [] then []
  else l.take 64 :: chunk64 (l.drop 64)
termination_by l.length
decreasing_by
  simp only [List.length_drop]
  have : 0 < l.length := List.length_pos.mpr _h
  omega

/-- Extend the 16 message-schedule words to 64. -/
def shaSchedule (ws : List Nat) : List Nat :=
  (List.range 48).foldl
    (fun a i =>
      let t := i + 16
      a ++ [w32 (smallSigma1 (a.getD (t - 2) 0) + a.getD (t - 7) 0 +
        smallSigma0 (a.getD (t - 15) 0) + a.getD (t - 16) 0)])
    ws

/-- One SHA-256 compression round. -/
def shaRound (st : Hash8) (k w : Nat) : Hash8 :=
  let t1 := w32 (st.hh + bigSigma1 st.e + shaCh st.e st.f st.g + k + w)
  let t2 := w32 (bigSigma0 st.a + shaMaj st.a st.b st.c)
  ⟨w32 (t1 + t2), st.a, st.b, st.c, w32 (st.d + t1), st.e, st.f, st.g⟩

/-- Compress one 64-byte chunk into the running hash. -/
def shaCompress (st : Hash8) (chunk : List Nat) : Hash8 :=
  let ws := shaSchedule (bytesToWords chunk)
  let fin := (shaK.zip ws).foldl (fun s p => shaRound s p.1 p.2) st
  ⟨w32 (st.a + fin.a), w32 (st.b + fin.b), w32 (st.c + fin.c), w32 (st.d + fin.d),
   w32 (st.e + fin.e), w32 (st.f + fin.f), w32 (st.g + fin.g), w32 (st.hh + fin.hh)⟩

/-- Big-endian bytes of one 32-bit word. -/
def wordBytes (w : Nat) : List Nat :=
  [(w >>> 24) % 256, (w >>> 16) % 256, (w >>> 8) % 256, w % 256]

/-- SHA-256 of a byte list (`hashlib.sha256(msg).digest()`). -/
def sha256 (msg : List Nat) : List Nat :=
  let st := (chunk64 (sha256Pad msg)).foldl shaCompress shaH0
  wordBytes st.a ++ wordBytes st.b ++ wordBytes st.c ++ wordBytes st.d ++
    wordBytes st.e ++ wordBytes st.f ++ wordBytes st.g ++ wordBytes st.hh

/-- HMAC-SHA256 (`hmac.new(key, msg, hashlib.sha256).digest()`). -/
def hmacSha256 (key msg : List Nat) : List Nat :=
  let k1 := if 64 < key.length then sha256 key else key
  let k2 := k1 ++ List.replicate (64 - k1.length) 0
  let ipad := k2.map (fun b => b ^^^ 0x36)
  let opad := k2.map (fun b => b ^^^ 0x5c)
  sha256 (opad ++ sha256 (ipad ++ msg))

/-- Two lowercase hex digits of a byte. -/
def hexByte (b : Nat) : List Char := [hexChar (b / 16 % 16), hexChar (b % 16)]

/-- Digest rendering `.hexdigest()`: the lowercase-hex string of a byte list. -/
def hexDigest (bytes : List Nat) : String :=
  String.mk ((bytes.map hexByte).flatten)

/-! ## The call log store (`src/toolkit/logging.py`)

The `tool_calls` table is a `List Row` in rowid (insertion) order.  A TEXT
column holding `json.dumps(v)` of a value `v` is modelled by `some v`
(`json.dumps` is injective on JSON-shaped values and `json.loads` inverts
it; the NULL/non-NULL distinction, which the claims are about, is the
`Option`).  The `timestamp` column holds `start_time.isoformat()` and is
compared by SQLite as TEXT, i.e. bytewise, so it is modelled as
`List Char` under the lexicographic order. -/

/-- An ISO-8601 text timestamp, under SQLite's bytewise TEXT order. -/
abbrev Timestamp := List Char

/-- A row of the `tool_calls` table. -/
structure Row where
  call_id : String
  tool_name : String
  timestamp : Timestamp
  inputs : JValue
  outputs : Option JValue
  error : Option String
  duration_ms : Int
  agent_metadata : Option JValue
deriving Repr

/-- Python `str(v)` for the values the `log_call` dict comprehension stringifies:
of the JSON-shaped values, only `None` is not an instance of
`(str, int, float, bool, list, dict)`, and `str(None)` is `"None"`. -/
def pyStrOfNull : JValue → JValue
  | .null => .str "None"
  | v => v

/-- The `outputs` conversion in `log_call`: when `outputs` is a truthy
dict, each non-JSON-native value is stringified. -/
def coerceOutputs : JValue → JValue
  | .obj fs => if fs.isEmpty then .obj fs else .obj (fs.map (fun p => (p.1, pyStrOfNull p.2)))
  | v => v

/-- The expression `json.dumps(outputs) if outputs else None`: the stored `outputs`
column, NULL exactly when the (converted) value is falsy. -/
def storedOutputs (outputs : JValue) : Option JValue :=
  let o := coerceOutputs outputs
  if truthy o then some o else none

/-- The row `ToolLogger.log_call` builds and inserts.  `duration` stands
for the measured `(utcnow() - start_time) * 1000`. -/
def logRow (call_id tool_name : String) (inputs outputs : JValue)
    (start_time : Timestamp) (error : Option String) (agent_metadata : JValue)
    (duration : Int) : Row :=
  { call_id := call_id
    tool_name := tool_name
    timestamp := start_time
    inputs := inputs
    outputs := storedOutputs outputs
    error := error
    duration_ms := duration
    agent_metadata := if truthy agent_metadata then some agent_metadata else none }

/-- The SQL `INSERT INTO tool_calls`: appends the row, or raises
`sqlite3.IntegrityError` when the `call_id` PRIMARY KEY is violated. -/
def insertToolCall (table : List Row) (r : Row) : Except String (List Row) :=
  if table.any (fun x => x.call_id == r.call_id) then
    Except.error "UNIQUE constraint failed: tool_calls.call_id"
  else
    Except.ok (table ++ [r])

/-- Embedding of `ToolLogger.log_call`: builds the row and attempts the
insert.  The `except sqlite3.Error` handler prints the error to stderr and
falls through, so the function returns normally (`Except.ok`) in both
branches; on a database error the table is unchanged. -/
def log_call (table : List Row) (call_id tool_name : String) (inputs outputs : JValue)
    (start_time : Timestamp) (error : Option String) (agent_metadata : JValue)
    (duration : Int) : Except String (List Row) :=
  match insertToolCall table
      (logRow call_id tool_name inputs outputs start_time error agent_metadata duration) with
  | .ok table' => .ok table'
  | .error _ => .ok table

/-- Comparison for `ORDER BY timestamp DESC`. -/
def tsDesc (a b : Row) : Prop := b.timestamp ≤ a.timestamp

/-- Comparison for `ORDER BY timestamp ASC`. -/
def tsAsc (a b : Row) : Prop := a.timestamp ≤ b.timestamp

instance : DecidableRel tsDesc :=
  fun a b => inferInstanceAs (Decidable (b.timestamp ≤ a.timestamp))

instance : DecidableRel tsAsc :=
  fun a b => inferInstanceAs (Decidable (a.timestamp ≤ b.timestamp))

instance : IsTotal Row tsDesc := ⟨fun a b => le_total b.timestamp a.timestamp⟩

instance : IsTotal Row tsAsc := ⟨fun a b => le_total a.timestamp b.timestamp⟩

instance : IsTrans Row tsDesc := ⟨fun _ _ _ h h' => le_trans h' h⟩

instance : IsTrans Row tsAsc := ⟨fun _ _ _ h h' => le_trans h h'⟩

/-- Embedding of `ToolLogger.get_logs`: `SELECT * FROM tool_calls
[WHERE tool_name = ?] ORDER BY timestamp DESC LIMIT ?`.  The `WHERE`
clause is added only when the Python argument is truthy (`if tool_name:`),
so a `some ""` filter behaves like no filter.  SQLite leaves the relative
order of equal timestamps unspecified; the model resolves it
deterministically with a stable sort over rowid order. -/
def get_logs (table : List Row) (tool_name : Option String) (limit : Nat) : List Row :=
  let rows :=
    match tool_name with
    | some t => if t = "" then table else table.filter (fun r => r.tool_name == t)
    | none => table
  (rows.insertionSort tsDesc).take limit

/-- One step of the SQL `MAX(timestamp)` aggregate. -/
def maxStep (acc : Option Timestamp) (r : Row) : Option Timestamp :=
  match acc with
  | none => some r.timestamp
  | some t => some (max t r.timestamp)

/-- The query `SELECT MAX(timestamp) FROM tool_calls`. -/
def maxTimestamp (table : List Row) : Option Timestamp :=
  table.foldl maxStep none

/-- The watermark `watch_logs` starts from:
`row['last_ts'] if row['last_ts'] else '1970-01-01T00:00:00'`. -/
def initWatermark (table : List Row) : Timestamp :=
  match maxTimestamp table with
  | some t => if t = [] then "1970-01-01T00:00:00".toList else t
  | none => "1970-01-01T00:00:00".toList

/-- One polling `SELECT` of `watch_logs`: rows with `timestamp > ?`
(strictly above the watermark), optionally filtered by tool name (again
only when truthy), `ORDER BY timestamp ASC`. -/
def watchQuery (table : List Row) (last : Timestamp) (tool_name : Option String) : List Row :=
  let rows := table.filter (fun r => decide (last < r.timestamp))
  let rows :=
    match tool_name with
    | some t => if t = "" then rows else rows.filter (fun r => r.tool_name == t)
    | none => rows
  rows.insertionSort tsAsc

/-- The watermark after one polling iteration: `watch_logs` assigns
`last_timestamp = row['timestamp']` before each yield, so the net effect
of a batch is the timestamp of its last row (unchanged if empty). -/
def nextWatermark (last : Timestamp) (batch : List Row) : Timestamp :=
  match batch.getLast? with
  | some r => r.timestamp
  | none => last

/-- A finite run of the `watch_logs` polling loop over successive
snapshots of the table, recording for each iteration the watermark in
force when the `SELECT` ran, paired with the batch it yielded. -/
def watchRun (tool_name : Option String) : Timestamp → List (List Row) → List (Timestamp × List Row)
  | _, [] => []
  | last, table :: rest =>
    let batch := watchQuery table last tool_name
    (last, batch) :: watchRun tool_name (nextWatermark last batch) rest

/-- Embedding of `ToolLogger.watch_logs`: reads `MAX(timestamp)` from the
table at subscription time (`init`), then runs the polling loop over the
given snapshots. -/
def watch_logs (tool_name : Option String) (init : List Row) (tables : List (List Row)) :
    List (Timestamp × List Row) :=
  watchRun tool_name (initWatermark init) tables

/-- The records of a run, in yield order. -/
def joinYields (run : List (Timestamp × List Row)) : List Row :=
  (run.map Prod.snd).flatten

/-- Timestamp of the last record of `rs`, or the default `d` if none. -/
def lastYieldTs (d : Timestamp) (rs : List Row) : Timestamp :=
  match rs.getLast? with
  | some r => r.timestamp
  | none => d

/-- The watermark in force at the start of polling iteration `j`. -/
def wmAt (tool_name : Option String) (w0 : Timestamp) : List (List Row) → Nat → Timestamp
  | _, 0 => w0
  | [], _ + 1 => w0
  | table :: rest, j + 1 =>
    wmAt tool_name (nextWatermark w0 (watchQuery table w0 tool_name)) rest j

/-! ## The replay engine (`src/toolkit/replay.py`) -/

/-- The dict `ReplayManager.get_call` builds from a row.  The stored
`outputs` TEXT is `json.loads`-ed when truthy; a stored dump is never the
empty string, so truthiness coincides with the column being non-NULL. -/
structure CallData where
  id : String
  tool : String
  timestamp : Timestamp
  inputs : JValue
  outputs : Option JValue
  error : Option String
deriving Repr

/-- Project a `tool_calls` row to the dict `get_call` returns. -/
def rowToCallData (r : Row) : CallData :=
  { id := r.call_id
    tool := r.tool_name
    timestamp := r.timestamp
    inputs := r.inputs
    outputs := r.outputs
    error := r.error }

/-- The typed failures of the replay path: `FileNotFoundError` for a
missing call, `ValueError` for an unresolvable tool. -/
inductive ReplayExn where
  | notFound (msg : String)
  | toolNotFound (msg : String)
deriving Repr, DecidableEq

/-- Embedding of `ReplayManager.get_call`: `SELECT * FROM tool_calls WHERE
call_id = ?`, `fetchone()`; raises `FileNotFoundError` when no row
matches. -/
def get_call (table : List Row) (call_id : String) : Except ReplayExn CallData :=
  match table.find? (fun r => r.call_id == call_id) with
  | some r => .ok (rowToCallData r)
  | none => .error (.notFound ("Call ID " ++ call_id ++ " not found in logs"))

/-- A resolved tool handle: `tool._func(**inputs)` run to completion,
returning a value (`.ok`) or raising (`.error str(e)`). -/
structure ToolHandle where
  func : JValue → Except String JValue

/-- The structured outcome `replay_call` returns: the original call dict
plus either `replay_result` (`.ok`) or `replay_error` (`.error`).  The
wall-clock completion timestamp the code attaches is not modelled. -/
structure ReplayOutcome where
  original_call : CallData
  outcome : Except String JValue
deriving Repr

/-- Embedding of `ReplayManager.replay_call`: loads the original call
(propagating `get_call`'s failure), resolves the tool via the registry
(`if not tool: raise ValueError`), then invokes it with the original
inputs inside `try/except Exception`, so the tool's own failure is
captured in the returned outcome, never re-raised. -/
def replay_call (table : List Row) (call_id : String)
    (get_tool : String → Option ToolHandle) : Except ReplayExn ReplayOutcome :=
  match get_call table call_id with
  | .error e => .error e
  | .ok call_data =>
    match get_tool call_data.tool with
    | none => .error (.toolNotFound ("Tool " ++ call_data.tool ++ " not found in the provided module"))
    | some tool => .ok { original_call := call_data, outcome := tool.func call_data.inputs }

/-! ## The executor path (`src/toolkit/core.py`) -/

/-- The row `Tool.execute` logs: on success `outputs := result` and
`error := None`; on failure `outputs := None` and `error := str(e)`.
`result` is the tool body's outcome (`.ok value` or `.error (str e)`). -/
def executeRow (call_id tool_name : String) (inputs : JValue)
    (start_time : Timestamp) (duration : Int) (result : Except String JValue) : Row :=
  match result with
  | .ok r => logRow call_id tool_name inputs r start_time none .null duration
  | .error e => logRow call_id tool_name inputs .null start_time (some e) .null duration

/-- Embedding of `Tool.execute`: runs the tool body, logs through
`log_call`, returns the result (re-raising the tool's exception). -/
def execute (table : List Row) (call_id tool_name : String) (inputs : JValue)
    (start_time : Timestamp) (duration : Int) (result : Except String JValue) :
    List Row × Except String JValue :=
  let logged :=
    match log_call table call_id tool_name inputs
        (match result with | .ok r => r | .error _ => .null)
        start_time
        (match result with | .ok _ => none | .error e => some e)
        .null duration with
    | .ok t => t
    | .error _ => table
  (logged, result)

/-! ## Webhooks (`src/toolkit/webhooks.py`)

The `webhooks` table is a `List WebhookConfig` in rowid order.  The
in-memory `self._webhooks` list is reloaded from the table after every
mutation, so the table itself stands for both. -/

/-- A row of the `webhooks` table / a `WebhookConfig` dataclass. -/
structure WebhookConfig where
  url : String
  tool_name : Option String
  secret : Option String
  retries : Nat
deriving Repr, DecidableEq

/-- Whether an existing row conflicts with an inserted row on the
`PRIMARY KEY (url, tool_name)`.  SQLite permits NULLs in such a key and
treats each NULL as distinct from every value including other NULLs, so a
NULL `tool_name` never conflicts. -/
def webhookPkConflict (x r : WebhookConfig) : Bool :=
  x.url == r.url &&
    match x.tool_name, r.tool_name with
    | some a, some b => a == b
    | _, _ => false

/-- The statement `INSERT OR REPLACE INTO webhooks`: delete the rows the new row
conflicts with, then append it (fresh rowid). -/
def insertOrReplaceWebhook (table : List WebhookConfig) (r : WebhookConfig) :
    List WebhookConfig :=
  table.filter (fun x => !webhookPkConflict x r) ++ [r]

/-- Embedding of `WebhookManager.add_webhook`: `INSERT OR REPLACE INTO
webhooks (url, tool_name, secret) VALUES (?, ?, ?)`; the `retries` column
takes its schema default 3. -/
def add_webhook (table : List WebhookConfig) (url : String)
    (tool_name secret : Option String) : List WebhookConfig :=
  insertOrReplaceWebhook table ⟨url, tool_name, secret, 3⟩

/-- Embedding of `WebhookManager.list_webhooks`: one
`{url, tool_name, active: True}` entry per loaded registration. -/
def list_webhooks (table : List WebhookConfig) : List (String × Option String × Bool) :=
  table.map (fun w => (w.url, w.tool_name, true))

/-- Embedding of `WebhookManager._sign_payload`: `None` when the secret is
falsy (`if not secret:`, so `None` or `""`), otherwise the lowercase-hex
HMAC-SHA256 of `json.dumps(payload).encode()` keyed by `secret.encode()`. -/
def sign_payload (payload : JValue) (secret : Option String) : Option String :=
  match secret with
  | none => none
  | some s =>
    if s = "" then none
    else some (hexDigest (hmacSha256 (utf8Bytes s) (utf8Bytes (jsonDumps payload))))

/-- The headers one `_send_webhook` attempt posts: `Content-Type` always;
the signature header only when `_sign_payload` returned a truthy string
(`if signature:`). -/
def buildHeaders (cfg : WebhookConfig) (payload : JValue) : List (String × String) :=
  let headers := [("Content-Type", "application/json")]
  match sign_payload payload cfg.secret with
  | some sig => if sig = "" then headers else headers ++ [("X-B2A-Signature", sig)]
  | none => headers

/-- The payload `trigger` builds: `{event, tool, timestamp, data}` with the
trigger-time UTC timestamp `ts`. -/
def triggerPayload (event_type tool_name ts : String) (data : JValue) : JValue :=
  .obj [("event", .str event_type), ("tool", .str tool_name),
    ("timestamp", .str ts), ("data", data)]

/-- The attempt loop of `_send_webhook` from attempt index `i` with `n`
attempts remaining: each attempt is one `transport` call (`self._client.post`
+ `raise_for_status`, `.ok` on success, `.error` when the attempt raises);
an attempt's exception is caught (`except Exception`), the final one is
only printed.  Returns how many attempts ran and whether one succeeded;
it returns normally in every case. -/
def sendFrom (transport : Nat → Except String Unit) (i : Nat) : Nat → Nat × Bool
  | 0 => (0, false)
  | n + 1 =>
    match transport i with
    | .ok _ => (1, true)
    | .error _ =>
      let r := sendFrom transport (i + 1) n
      (r.1 + 1, r.2)

/-- Embedding of `WebhookManager._send_webhook`: `for attempt in
range(config.retries)` around one transport call per attempt. -/
def send_webhook (cfg : WebhookConfig) (transport : Nat → Except String Unit) : Nat × Bool :=
  sendFrom transport 0 cfg.retries

/-- The registrations `trigger` fans out to: `tool_name is None or
tool_name == event tool`. -/
def matchingHooks (hooks : List WebhookConfig) (tool_name : String) : List WebhookConfig :=
  hooks.filter (fun w =>
    match w.tool_name with
    | none => true
    | some t => t == tool_name)

/-- Embedding of `WebhookManager.trigger`: delivers to every matching
registration (concurrently via `asyncio.gather` in the source; the model
records each delivery's attempt count and success flag).  `_send_webhook`
never raises, so `gather` collects one settled result per matching hook
and `trigger` returns normally. -/
def trigger (hooks : List WebhookConfig) (tool_name : String)
    (transports : WebhookConfig → Nat → Except String Unit) : List (Nat × Bool) :=
  (matchingHooks hooks tool_name).map (fun w => send_webhook w (transports w))

/-! ## Concrete sample data used by witnesses and counterexamples -/

/-- Sample ISO timestamp. -/
def ts1 : Timestamp := "2024-01-01T00:00:01".toList

/-- Sample ISO timestamp, later than `ts1`. -/
def ts2 : Timestamp := "2024-01-01T00:00:02".toList

/-- Sample ISO timestamp, later than `ts2`. -/
def ts3 : Timestamp := "2024-01-01T00:00:03".toList

/-- A logged call of tool `t`. -/
def rowA : Row := ⟨"a1", "t", ts1, .obj [], none, none, 0, none⟩

/-- A later logged call of tool `t`, with outputs. -/
def rowB : Row := ⟨"b2", "t", ts2, .obj [], some (.obj [("r", .int 1)]), none, 0, none⟩

/-- A still later logged failed call of tool `u`. -/
def rowC : Row := ⟨"c3", "u", ts3, .obj [], none, some "boom", 0, none⟩

/-- A logged call with inputs, for replay. -/
def rowR : Row := ⟨"r1", "t", ts1, .obj [("x", .int 10)], some (.obj [("r", .int 1)]), none, 0, none⟩

/-- Sample ISO timestamp, earlier than `ts1`. -/
def ts0 : Timestamp := "2024-01-01T00:00:00".toList

/-- A logged call sharing `rowA`'s timestamp, inserted later. -/
def rowD : Row := ⟨"d4", "t", ts1, .obj [], none, none, 0, none⟩

/-- A tool handle whose invocation always raises. -/
def failTool : ToolHandle := ⟨fun _ => .error "division by zero"⟩

/-- A registry resolving only the name `t`, to `failTool`. -/
def regFail : String → Option ToolHandle := fun n => if n = "t" then some failTool else none

/-- A transport on which every delivery attempt raises. -/
def failTransport : WebhookConfig → Nat → Except String Unit :=
  fun _ _ => .error "connection refused"

/-- A global webhook registration with no secret. -/
def hookG : WebhookConfig := ⟨"http://e", none, none, 3⟩

/-- A registration whose secret is the empty string. -/
def cfgEmptySecret : WebhookConfig := ⟨"http://e", none, some "", 3⟩

/-- A registration with a non-empty secret. -/
def cfgSecretK : WebhookConfig := ⟨"http://e", none, some "k", 3⟩

/-! ### Association-list dictionary lemmas -/

theorem lookupField_mem {k : String} {v : JValue} :
    ∀ {fs : List (String × JValue)}, lookupField k fs = some v → (k, v) ∈ fs := by
  intro fs
  induction fs with
  | nil => intro h; simp [lookupField] at h
  | cons p rest ih =>
    obtain ⟨k', w⟩ := p
    simp only [lookupField]
    split
    · rename_i hk
      intro h
      cases h
      subst hk
      exact List.mem_cons_self _ _
    · intro h
      exact List.mem_cons_of_mem _ (ih h)

theorem lookupField_isSome_iff {k : String} :
    ∀ {fs : List (String × JValue)},
      (lookupField k fs).isSome = true ↔ k ∈ fs.map Prod.fst := by
  intro fs
  induction fs with
  | nil => simp [lookupField]
  | cons p rest ih =>
    obtain ⟨k', w⟩ := p
    simp only [lookupField, List.map_cons, List.mem_cons]
    split
    · rename_i hk
      simp [hk]
    · rename_i hk
      simp only [ih]
      constructor
      · exact Or.inr
      · rintro (h | h)
        · exact absurd h.symm hk
        · exact h

theorem nodupKeys_iff : ∀ {fs : List (String × JValue)},
    nodupKeys fs = true ↔ (fs.map Prod.fst).Nodup := by
  intro fs
  induction fs with
  | nil => simp [nodupKeys]
  | cons p rest ih =>
    obtain ⟨k, v⟩ := p
    simp only [nodupKeys, Bool.and_eq_true, Bool.not_eq_true', List.map_cons,
      List.nodup_cons, ih, List.any_eq_false, List.mem_map, decide_eq_true_eq]
    constructor
    · rintro ⟨h1, h2⟩
      refine ⟨?_, h2⟩
      rintro ⟨⟨k', w⟩, hmem, hk⟩
      exact h1 _ hmem hk
    · rintro ⟨h1, h2⟩
      exact ⟨fun p hp hk => h1 ⟨p, hp, hk⟩, h2⟩

theorem lookupField_of_mem_nodup {k : String} {v : JValue} :
    ∀ {fs : List (String × JValue)}, nodupKeys fs = true → (k, v) ∈ fs →
      lookupField k fs = some v := by
  intro fs
  induction fs with
  | nil => intro _ h; simp at h
  | cons p rest ih =>
    obtain ⟨k', w⟩ := p
    intro hnd hmem
    simp only [nodupKeys, Bool.and_eq_true, Bool.not_eq_true', List.any_eq_false,
      decide_eq_true_eq] at hnd
    obtain ⟨hfresh, hnd'⟩ := hnd
    rcases List.mem_cons.mp hmem with h | h
    · cases h
      simp [lookupField]
    · have hne : k' ≠ k := by
        have h2 := hfresh _ h
        exact fun he => h2 he.symm
      simp only [lookupField, if_neg hne]
      exact ih hnd' h

theorem popField_sublist (k : String) :
    ∀ fs : List (String × JValue), (popField k fs).Sublist fs := by
  intro fs
  induction fs with
  | nil => simp [popField]
  | cons p rest ih =>
    obtain ⟨k', v⟩ := p
    simp only [popField]
    split
    · exact List.sublist_cons_self _ _
    · exact List.Sublist.cons₂ _ ih

/-! ### Sizes and well-formedness bookkeeping -/

theorem JValue.one_le_sizeOf (a : JValue) : 1 ≤ sizeOf a := by
  cases a <;> simp

theorem sizeOf_lt_of_mem_list {x : JValue} {xs : List JValue} (h : x ∈ xs) :
    sizeOf x < sizeOf xs := by
  induction xs with
  | nil => simp at h
  | cons y ys ih =>
    rcases List.mem_cons.mp h with h | h
    · subst h; simp; omega
    · have := ih h; simp; omega

theorem sizeOf_lt_of_mem_fields {k : String} {v : JValue}
    {fs : List (String × JValue)} (h : (k, v) ∈ fs) : sizeOf v < sizeOf fs := by
  induction fs with
  | nil => simp at h
  | cons p rest ih =>
    rcases List.mem_cons.mp h with h | h
    · subst h; simp; omega
    · have := ih h
      obtain ⟨k', w⟩ := p
      simp; omega

theorem WFbList_mem {xs : List JValue} {x : JValue} (h : WFbList xs = true)
    (hx : x ∈ xs) : WFb x = true := by
  induction xs with
  | nil => simp at hx
  | cons y ys ih =>
    simp only [WFbList, Bool.and_eq_true] at h
    rcases List.mem_cons.mp hx with hx | hx
    · subst hx; exact h.1
    · exact ih h.2 hx

theorem WFbFields_mem {fs : List (String × JValue)} {k : String} {v : JValue}
    (h : WFbFields fs = true) (hv : (k, v) ∈ fs) : WFb v = true := by
  induction fs with
  | nil => simp at hv
  | cons p rest ih =>
    obtain ⟨k', w⟩ := p
    simp only [WFbFields, Bool.and_eq_true] at h
    rcases List.mem_cons.mp hv with hv | hv
    · cases hv; exact h.1
    · exact ih h.2 hv

theorem WFbFields_sublist {fs gs : List (String × JValue)} (h : fs.Sublist gs)
    (hg : WFbFields gs = true) : WFbFields fs = true := by
  induction h with
  | slnil => exact hg
  | cons p _ ih =>
    obtain ⟨k, v⟩ := p
    simp only [WFbFields, Bool.and_eq_true] at hg
    exact ih hg.2
  | cons₂ p h ih =>
    obtain ⟨k, v⟩ := p
    simp only [WFbFields, Bool.and_eq_true] at hg ⊢
    exact ⟨hg.1, ih hg.2⟩

theorem WFb_popField {k : String} {fs : List (String × JValue)}
    (h : WFb (.obj fs) = true) : WFb (.obj (popField k fs)) = true := by
  simp only [WFb, Bool.and_eq_true] at h ⊢
  obtain ⟨hnd, hflds⟩ := h
  have hsub := popField_sublist k fs
  constructor
  · rw [nodupKeys_iff] at hnd ⊢
    exact (hsub.map Prod.fst).nodup hnd
  · exact WFbFields_sublist hsub hflds

/-! ### Characterizing Python dict equality -/

theorem pyEqFields_iff_forall : ∀ {fs gs : List (String × JValue)},
    pyEqFields fs gs = true ↔
      ∀ p ∈ fs, ∃ w, lookupField p.1 gs = some w ∧ pyEq p.2 w = true := by
  intro fs gs
  induction fs with
  | nil => simp [pyEqFields]
  | cons p rest ih =>
    obtain ⟨k, v⟩ := p
    simp only [pyEqFields, Bool.and_eq_true, ih, List.mem_cons]
    constructor
    · rintro ⟨h1, h2⟩ q hq
      rcases hq with hq | hq
      · subst hq
        cases hl : lookupField k gs with
        | none => rw [hl] at h1; simp at h1
        | some w => rw [hl] at h1; exact ⟨w, rfl, h1⟩
      · exact h2 q hq
    · intro h
      refine ⟨?_, fun q hq => h q (Or.inr hq)⟩
      obtain ⟨w, hl, hw⟩ := h (k, v) (Or.inl rfl)
      rw [hl]
      exact hw

theorem keysFinset_card {fs : List (String × JValue)} (h : nodupKeys fs = true) :
    (fs.map Prod.fst).toFinset.card = fs.length := by
  rw [List.toFinset_card_of_nodup (nodupKeys_iff.mp h), List.length_map]

theorem lookup_isSome_iff_of_sub_len {fs gs : List (String × JValue)}
    (hf : nodupKeys fs = true) (hg : nodupKeys gs = true)
    (hlen : fs.length = gs.length)
    (hsub : ∀ k, (lookupField k fs).isSome = true → (lookupField k gs).isSome = true) :
    ∀ k, (lookupField k fs).isSome = true ↔ (lookupField k gs).isSome = true := by
  classical
  have hfin : (fs.map Prod.fst).toFinset ⊆ (gs.map Prod.fst).toFinset := by
    intro k hk
    rw [List.mem_toFinset] at hk ⊢
    exact lookupField_isSome_iff.mp (hsub k (lookupField_isSome_iff.mpr hk))
  have heq : (fs.map Prod.fst).toFinset = (gs.map Prod.fst).toFinset := by
    refine Finset.eq_of_subset_of_card_le hfin ?_
    rw [keysFinset_card hf, keysFinset_card hg, hlen]
  intro k
  rw [lookupField_isSome_iff, lookupField_isSome_iff, ← List.mem_toFinset,
    ← List.mem_toFinset, heq]

theorem length_eq_of_keys_iff {fs gs : List (String × JValue)}
    (hf : nodupKeys fs = true) (hg : nodupKeys gs = true)
    (hkeys : ∀ k, (lookupField k fs).isSome = true ↔ (lookupField k gs).isSome = true) :
    fs.length = gs.length := by
  classical
  have heq : (fs.map Prod.fst).toFinset = (gs.map Prod.fst).toFinset := by
    ext k
    rw [List.mem_toFinset, List.mem_toFinset, ← lookupField_isSome_iff,
      ← lookupField_isSome_iff]
    exact hkeys k
  have := congrArg Finset.card heq
  rwa [keysFinset_card hf, keysFinset_card hg] at this

/-- Python `==` on well-formed JSON-shaped values decides exactly the
specification's structural equality (same keys, same values, recursively),
by strong induction on the size of the left value. -/
theorem pyEq_iff_sameStruct_aux :
    ∀ n : Nat, ∀ a b : JValue, sizeOf a ≤ n → WFb a = true → WFb b = true →
      (pyEq a b = true ↔ SameStruct a b) := by
  intro n
  induction n with
  | zero =>
    intro a b ha _ _
    have := JValue.one_le_sizeOf a
    omega
  | succ n ih =>
    have hlist : ∀ xs ys : List JValue, sizeOf xs ≤ n →
        WFbList xs = true → WFbList ys = true →
        (pyEqList xs ys = true ↔ List.Forall₂ SameStruct xs ys) := by
      intro xs
      induction xs with
      | nil =>
        intro ys _ _ _
        cases ys <;> simp [pyEqList]
      | cons x xs ihx =>
        intro ys hsz hwx hwy
        cases ys with
        | nil => simp [pyEqList]
        | cons y ys =>
          simp only [WFbList, Bool.and_eq_true] at hwx hwy
          simp only [List.cons.sizeOf_spec] at hsz
          have hszx : sizeOf x ≤ n := by omega
          have hszxs : sizeOf xs ≤ n := by omega
          simp only [pyEqList, Bool.and_eq_true, List.forall₂_cons]
          rw [ih x y hszx hwx.1 hwy.1, ihx ys hszxs hwx.2 hwy.2]
    intro a b hsize hwa hwb
    cases a with
    | null =>
      cases b with
      | null => exact iff_of_true (by simp [pyEq]) .null
      | int m => exact iff_of_false (by simp [pyEq]) (by intro h; cases h)
      | str s => exact iff_of_false (by simp [pyEq]) (by intro h; cases h)
      | arr ys => exact iff_of_false (by simp [pyEq]) (by intro h; cases h)
      | obj gs => exact iff_of_false (by simp [pyEq]) (by intro h; cases h)
    | int m =>
      cases b with
      | int m' =>
        constructor
        · intro h
          simp only [pyEq, beq_iff_eq] at h
          subst h
          exact .int _
        · intro h
          cases h
          simp [pyEq]
      | null => exact iff_of_false (by simp [pyEq]) (by intro h; cases h)
      | str s => exact iff_of_false (by simp [pyEq]) (by intro h; cases h)
      | arr ys => exact iff_of_false (by simp [pyEq]) (by intro h; cases h)
      | obj gs => exact iff_of_false (by simp [pyEq]) (by intro h; cases h)
    | str s =>
      cases b with
      | str s' =>
        constructor
        · intro h
          simp only [pyEq, beq_iff_eq] at h
          subst h
          exact .str _
        · intro h
          cases h
          simp [pyEq]
      | null => exact iff_of_false (by simp [pyEq]) (by intro h; cases h)
      | int m => exact iff_of_false (by simp [pyEq]) (by intro h; cases h)
      | arr ys => exact iff_of_false (by simp [pyEq]) (by intro h; cases h)
      | obj gs => exact iff_of_false (by simp [pyEq]) (by intro h; cases h)
    | arr xs =>
      cases b with
      | arr ys =>
        simp only [JValue.arr.sizeOf_spec] at hsize
        simp only [WFb] at hwa hwb
        simp only [pyEq]
        rw [hlist xs ys (by omega) hwa hwb]
        constructor
        · intro h
          obtain ⟨hlen, hget⟩ := List.forall₂_iff_get.mp h
          exact .arr hlen hget
        · intro h
          cases h with
          | arr hlen hget => exact List.forall₂_iff_get.mpr ⟨hlen, hget⟩
      | null => exact iff_of_false (by simp [pyEq]) (by intro h; cases h)
      | int m => exact iff_of_false (by simp [pyEq]) (by intro h; cases h)
      | str s => exact iff_of_false (by simp [pyEq]) (by intro h; cases h)
      | obj gs => exact iff_of_false (by simp [pyEq]) (by intro h; cases h)
    | obj fs =>
      cases b with
      | obj gs =>
        simp only [JValue.obj.sizeOf_spec] at hsize
        simp only [WFb, Bool.and_eq_true] at hwa hwb
        obtain ⟨hnf, hff⟩ := hwa
        obtain ⟨hng, hgf⟩ := hwb
        simp only [pyEq, Bool.and_eq_true, beq_iff_eq]
        constructor
        · rintro ⟨hlen, hflds⟩
          rw [pyEqFields_iff_forall] at hflds
          have hsub : ∀ k, (lookupField k fs).isSome = true →
              (lookupField k gs).isSome = true := by
            intro k hk
            obtain ⟨v, hv⟩ := Option.isSome_iff_exists.mp hk
            obtain ⟨w, hw, _⟩ := hflds (k, v) (lookupField_mem hv)
            simp [hw]
          have hkeys := lookup_isSome_iff_of_sub_len hnf hng hlen hsub
          refine .obj (fun k => by simpa using hkeys k) ?_
          intro k v w hv hw
          obtain ⟨w', hw', hpy⟩ := hflds (k, v) (lookupField_mem hv)
          rw [hw] at hw'
          cases hw'
          have hmemv := lookupField_mem hv
          have hmemw := lookupField_mem hw
          have hszv : sizeOf v ≤ n := by
            have := sizeOf_lt_of_mem_fields hmemv
            omega
          exact (ih v w hszv (WFbFields_mem hff hmemv) (WFbFields_mem hgf hmemw)).mp hpy
        · intro h
          cases h with
          | obj hkeys hvals =>
            have hkeys' : ∀ k, (lookupField k fs).isSome = true ↔
                (lookupField k gs).isSome = true := fun k => by simpa using hkeys k
            refine ⟨length_eq_of_keys_iff hnf hng hkeys', ?_⟩
            rw [pyEqFields_iff_forall]
            rintro ⟨k, v⟩ hmem
            have hv : lookupField k fs = some v := lookupField_of_mem_nodup hnf hmem
            have hws : (lookupField k gs).isSome = true :=
              (hkeys' k).mp (by simp [hv])
            obtain ⟨w, hw⟩ := Option.isSome_iff_exists.mp hws
            refine ⟨w, hw, ?_⟩
            have hszv : sizeOf v ≤ n := by
              have := sizeOf_lt_of_mem_fields hmem
              omega
            exact (ih v w hszv (WFbFields_mem hff hmem)
              (WFbFields_mem hgf (lookupField_mem hw))).mpr (hvals k v w hv hw)
      | null => exact iff_of_false (by simp [pyEq]) (by intro h; cases h)
      | int m => exact iff_of_false (by simp [pyEq]) (by intro h; cases h)
      | str s => exact iff_of_false (by simp [pyEq]) (by intro h; cases h)
      | arr ys => exact iff_of_false (by simp [pyEq]) (by intro h; cases h)

/-- Python `==` on well-formed JSON-shaped values is exactly structural
equality in the sense of the specification. -/
theorem pyEq_iff_sameStruct {a b : JValue} (ha : WFb a = true) (hb : WFb b = true) :
    pyEq a b = true ↔ SameStruct a b :=
  pyEq_iff_sameStruct_aux (sizeOf a) a b le_rfl ha hb

/-! ## Claim C4: `compare_outputs` -/

/-- C4: `compare_outputs` returns `true` if and only if the two output
mappings are exactly structurally equal — same keys, same values,
recursively for nested structures — after removing the `created_at` field
from both sides.  The Python code pops `created_at` from shallow copies,
so the arguments are unmutated by construction (the embedding is pure and
`popField` builds a new list). -/
theorem compare_outputs_c4 (a b : List (String × JValue))
    (ha : WFb (.obj a) = true) (hb : WFb (.obj b) = true) :
    compare_outputs a b = true ↔
      SameStruct (.obj (popField "created_at" a)) (.obj (popField "created_at" b)) :=
  pyEq_iff_sameStruct (WFb_popField ha) (WFb_popField hb)

/-- C4 witness: the specification's own example,
`compareOutputs({"a":1,"created_at":"X"}, {"a":1,"created_at":"Y"})`,
is `true`, and the theorem turns that into structural equality of the two
sides with `created_at` removed. -/
theorem compare_outputs_c4_witness :
    compare_outputs [("a", .int 1), ("created_at", .str "X")]
      [("a", .int 1), ("created_at", .str "Y")] = true ∧
    SameStruct (.obj (popField "created_at" [("a", .int 1), ("created_at", .str "X")]))
      (.obj (popField "created_at" [("a", .int 1), ("created_at", .str "Y")])) :=
  ⟨by decide,
    (compare_outputs_c4 [("a", .int 1), ("created_at", .str "X")]
      [("a", .int 1), ("created_at", .str "Y")] (by decide) (by decide)).mp (by decide)⟩

/-! ## Shared facts about `log_call` -/

/-- When no stored row has the inserted `call_id`, the insert succeeds and
`log_call` returns normally with the row appended. -/
theorem log_call_ok_of_fresh (table : List Row) (call_id tool_name : String)
    (inputs outputs : JValue) (start_time : Timestamp) (error : Option String)
    (agent_metadata : JValue) (duration : Int)
    (h : ∀ r ∈ table, r.call_id ≠ call_id) :
    log_call table call_id tool_name inputs outputs start_time error agent_metadata duration =
      .ok (table ++ [logRow call_id tool_name inputs outputs start_time error agent_metadata duration]) := by
  have hne : ¬ ∃ x ∈ table, x.call_id = call_id := by
    rintro ⟨x, hx, he⟩
    exact h x hx he
  simp [log_call, insertToolCall, logRow, hne]

/-- When a stored row already has the inserted `call_id`, the PRIMARY KEY
insert raises `sqlite3.IntegrityError`; `log_call` catches it, reports to
stderr, and returns normally with the table unchanged. -/
theorem log_call_swallow_of_dup (table : List Row) (call_id tool_name : String)
    (inputs outputs : JValue) (start_time : Timestamp) (error : Option String)
    (agent_metadata : JValue) (duration : Int)
    (h : ∃ r ∈ table, r.call_id = call_id) :
    log_call table call_id tool_name inputs outputs start_time error agent_metadata duration =
      .ok table := by
  obtain ⟨r, hr, he⟩ := h
  have hex : ∃ x ∈ table, x.call_id = call_id := ⟨r, hr, he⟩
  simp [log_call, insertToolCall, logRow, hex]

/-! ## Claim C1: `log_call` persistence -/

/-- C1 counterexample: inserting a record whose `call_id` already exists
in the store violates the `call_id` PRIMARY KEY; the raised
`sqlite3.Error` is caught and only printed, so `log_call` returns
normally (`.ok`) with the store unchanged — the record is neither
persisted nor is an error raised to the caller. -/
theorem log_call_c1_counterexample :
    log_call [rowA] "a1" "t" (.obj []) (.obj [("r", .int 1)]) ts2 none .null 0 =
      .ok [rowA] := rfl

/-- C1 (amended): `log_call` durably persists the record and returns
normally whenever the insert succeeds (no stored row has the same
`call_id`); when the database insert fails, the `sqlite3.Error` is
reported to stderr and swallowed: `log_call` still returns normally, with
the record not persisted.  It never raises to the caller. -/
theorem log_call_c1_amended (table : List Row) (call_id tool_name : String)
    (inputs outputs : JValue) (start_time : Timestamp) (error : Option String)
    (agent_metadata : JValue) (duration : Int) :
    ((∀ r ∈ table, r.call_id ≠ call_id) →
      log_call table call_id tool_name inputs outputs start_time error agent_metadata duration =
        .ok (table ++ [logRow call_id tool_name inputs outputs start_time error agent_metadata duration])) ∧
    ((∃ r ∈ table, r.call_id = call_id) →
      log_call table call_id tool_name inputs outputs start_time error agent_metadata duration =
        .ok table) :=
  ⟨log_call_ok_of_fresh table call_id tool_name inputs outputs start_time error agent_metadata duration,
   log_call_swallow_of_dup table call_id tool_name inputs outputs start_time error agent_metadata duration⟩

/-- C1 witness: logging into an empty store persists the record. -/
theorem log_call_c1_witness :
    log_call [] "a1" "t" (.obj []) (.obj [("r", .int 1)]) ts1 none .null 0 =
      .ok [logRow "a1" "t" (.obj []) (.obj [("r", .int 1)]) ts1 none .null 0] :=
  (log_call_c1_amended [] "a1" "t" (.obj []) (.obj [("r", .int 1)]) ts1 none .null 0).1
    (by simp)

/-! ## Claim C7: exactly one of `outputs`/`error` -/

/-- The `log_call` dict conversion preserves Python truthiness. -/
theorem truthy_coerceOutputs (v : JValue) : truthy (coerceOutputs v) = truthy v := by
  cases v with
  | obj fs => cases fs <;> simp [coerceOutputs, truthy]
  | null => rfl
  | int n => rfl
  | str s => rfl
  | arr xs => rfl

/-- C7 counterexample: a successful invocation whose result is the empty
dict (falsy) is stored with NULL `outputs` and NULL `error` — both fields
absent, violating "never both absent" and "success implies non-null
outputs". -/
theorem execute_row_c7_counterexample :
    (executeRow "a1" "t" (.obj []) ts1 0 (.ok (.obj []))).outputs = none ∧
    (executeRow "a1" "t" (.obj []) ts1 0 (.ok (.obj []))).error = none :=
  ⟨rfl, rfl⟩

/-- C7 (amended): every record written by the `Tool.execute` → `log_call`
path has NULL `outputs` and non-null `error` on failure, and non-null
`outputs` and NULL `error` on success with a truthy result; but a
successful invocation whose result is falsy (`None`, `0`, `""`, `[]`,
`{}`) stores NULL in both columns, so "exactly one is set" fails exactly
there.  The first conjunct shows the built row is what `execute`
persists. -/
theorem execute_row_c7_amended (call_id tool_name : String) (inputs : JValue)
    (start_time : Timestamp) (duration : Int) :
    (∀ table, (∀ r ∈ table, r.call_id ≠ call_id) →
      ∀ result, (execute table call_id tool_name inputs start_time duration result).1 =
        table ++ [executeRow call_id tool_name inputs start_time duration result]) ∧
    (∀ e, (executeRow call_id tool_name inputs start_time duration (.error e)).error = some e ∧
      (executeRow call_id tool_name inputs start_time duration (.error e)).outputs = none) ∧
    (∀ v, truthy v = true →
      (executeRow call_id tool_name inputs start_time duration (.ok v)).outputs = some (coerceOutputs v) ∧
      (executeRow call_id tool_name inputs start_time duration (.ok v)).error = none) ∧
    (∀ v, truthy v = false →
      (executeRow call_id tool_name inputs start_time duration (.ok v)).outputs = none ∧
      (executeRow call_id tool_name inputs start_time duration (.ok v)).error = none) := by
  refine ⟨?_, ?_, ?_, ?_⟩
  · intro table h result
    cases result with
    | ok v =>
      simp only [execute, executeRow]
      rw [log_call_ok_of_fresh table call_id tool_name inputs v start_time none .null duration h]
    | error e =>
      simp only [execute, executeRow]
      rw [log_call_ok_of_fresh table call_id tool_name inputs .null start_time (some e) .null duration h]
  · intro e
    exact ⟨rfl, rfl⟩
  · intro v hv
    constructor
    · simp [executeRow, logRow, storedOutputs, truthy_coerceOutputs, hv]
    · rfl
  · intro v hv
    constructor
    · simp [executeRow, logRow, storedOutputs, truthy_coerceOutputs, hv]
    · rfl

/-- C7 witness: a successful invocation with a truthy result stores its
outputs and a NULL error. -/
theorem execute_row_c7_witness :
    (executeRow "a1" "t" (.obj []) ts1 0 (.ok (.obj [("r", .int 1)]))).outputs =
      some (coerceOutputs (.obj [("r", .int 1)])) ∧
    (executeRow "a1" "t" (.obj []) ts1 0 (.ok (.obj [("r", .int 1)]))).error = none :=
  (execute_row_c7_amended "a1" "t" (.obj []) ts1 0).2.2.1 (.obj [("r", .int 1)]) (by decide)

/-! ## Claim C2: `add_webhook` upsert -/

/-- The PRIMARY KEY conflict predicate ignores the secret column. -/
theorem webhookPkConflict_secret_irrel (x : WebhookConfig) (url t : String)
    (s s' : Option String) :
    webhookPkConflict x ⟨url, some t, s, 3⟩ = webhookPkConflict x ⟨url, some t, s', 3⟩ := rfl

/-- Registering the same non-null key twice: the second `INSERT OR
REPLACE` removes exactly the row the first one appended. -/
theorem add_webhook_twice (T : List WebhookConfig) (url t : String) (s1 s2 : Option String) :
    add_webhook (add_webhook T url (some t) s1) url (some t) s2 =
      (T.filter (fun x => !webhookPkConflict x ⟨url, some t, s2, 3⟩)) ++ [⟨url, some t, s2, 3⟩] := by
  unfold add_webhook insertOrReplaceWebhook
  rw [List.filter_append, List.filter_filter]
  have h1 : (List.filter (fun x => !webhookPkConflict x ⟨url, some t, s2, 3⟩)
      [(⟨url, some t, s1, 3⟩ : WebhookConfig)]) = [] := by
    simp [webhookPkConflict]
  have h2 : ∀ x ∈ T, (!webhookPkConflict x ⟨url, some t, s2, 3⟩ &&
      !webhookPkConflict x ⟨url, some t, s1, 3⟩) =
      !webhookPkConflict x ⟨url, some t, s2, 3⟩ := by
    intro x _
    rw [webhookPkConflict_secret_irrel x url t s1 s2]
    exact Bool.and_self _
  rw [h1, List.filter_congr h2]
  simp

/-- C2 counterexample: with `toolName` null, the SQLite composite PRIMARY
KEY never fires (NULLs are pairwise distinct in a SQLite unique key), so
registering the same `(url, None)` twice appends two rows and
`list_webhooks` grows from one entry to two — not an upsert. -/
theorem add_webhook_c2_counterexample :
    (list_webhooks (add_webhook (add_webhook [] "http://e" none (some "s1"))
      "http://e" none (some "s2"))).length = 2 := by decide

/-- C2 (amended): for a NON-NULL `toolName`, `(url, toolName)` is a true
natural key: registering the same pair twice leaves exactly one matching
entry, carrying the most recent secret, and the `list_webhooks` length is
unchanged by the second registration.  With `toolName` null the insert
duplicates instead (see the counterexample). -/
theorem add_webhook_c2_amended (T : List WebhookConfig) (url t : String)
    (s1 s2 : Option String) :
    (add_webhook (add_webhook T url (some t) s1) url (some t) s2).filter
      (fun w => w.url == url && w.tool_name == some t) = [⟨url, some t, s2, 3⟩] ∧
    (list_webhooks (add_webhook (add_webhook T url (some t) s1) url (some t) s2)).length =
      (list_webhooks (add_webhook T url (some t) s1)).length := by
  have hkey : ∀ x : WebhookConfig,
      (x.url == url && x.tool_name == some t) = webhookPkConflict x ⟨url, some t, s2, 3⟩ := by
    intro x
    cases hx : x.tool_name <;> simp [webhookPkConflict, hx]
  constructor
  · rw [add_webhook_twice, List.filter_append, List.filter_filter]
    have hz : ∀ x ∈ T, ((x.url == url && x.tool_name == some t) &&
        !webhookPkConflict x ⟨url, some t, s2, 3⟩) = false := by
      intro x _
      rw [hkey x]
      exact Bool.and_not_self _
    rw [List.filter_congr hz]
    simp [hkey, webhookPkConflict]
  · rw [add_webhook_twice]
    unfold add_webhook insertOrReplaceWebhook list_webhooks
    have h2 : ∀ x ∈ T, (!webhookPkConflict x ⟨url, some t, s2, 3⟩) =
        (!webhookPkConflict x ⟨url, some t, s1, 3⟩) := by
      intro x _
      rw [webhookPkConflict_secret_irrel x url t s1 s2]
    rw [List.filter_congr h2]
    simp

/-! ## Claim C3: `replay_call` failure semantics -/

/-- C3: `replay_call` raises a typed failure in exactly two cases —
`NotFound` (a `FileNotFoundError`) iff no stored row has the requested
`call_id`, and `ToolNotFound` (a `ValueError`) iff the row exists but the
registry does not resolve its tool name.  In every other case it returns
the structured outcome holding the original call together with the tool
invocation's own result or error: the `try/except Exception` captures the
tool's exception in the outcome, never re-raising it. -/
theorem replay_call_c3 (table : List Row) (call_id : String)
    (get_tool : String → Option ToolHandle) :
    ((∃ m, replay_call table call_id get_tool = .error (.notFound m)) ↔
      table.find? (fun r => r.call_id == call_id) = none) ∧
    ((∃ m, replay_call table call_id get_tool = .error (.toolNotFound m)) ↔
      (∃ r, table.find? (fun r' => r'.call_id == call_id) = some r ∧
        get_tool r.tool_name = none)) ∧
    (∀ r, table.find? (fun r' => r'.call_id == call_id) = some r →
      ∀ tool, get_tool r.tool_name = some tool →
        replay_call table call_id get_tool =
          .ok ⟨rowToCallData r, tool.func (rowToCallData r).inputs⟩) := by
  refine ⟨?_, ?_, ?_⟩
  · cases hf : table.find? (fun r => r.call_id == call_id) with
    | none =>
      simp only [replay_call, get_call, hf]
      exact ⟨fun _ => trivial, fun _ => ⟨_, rfl⟩⟩
    | some r =>
      simp only [replay_call, get_call, hf]
      cases hg : get_tool (rowToCallData r).tool with
      | none =>
        constructor
        · rintro ⟨m, hm⟩
          cases hm
        · intro hc
          cases hc
      | some tool =>
        constructor
        · rintro ⟨m, hm⟩
          cases hm
        · intro hc
          cases hc
  · cases hf : table.find? (fun r => r.call_id == call_id) with
    | none =>
      simp only [replay_call, get_call, hf]
      constructor
      · rintro ⟨m, hm⟩
        cases hm
      · rintro ⟨r, hr, _⟩
        cases hr
    | some r =>
      simp only [replay_call, get_call, hf]
      cases hg : get_tool (rowToCallData r).tool with
      | none =>
        constructor
        · intro _
          exact ⟨r, rfl, by simpa [rowToCallData] using hg⟩
        · intro _
          exact ⟨_, rfl⟩
      | some tool =>
        constructor
        · rintro ⟨m, hm⟩
          cases hm
        · rintro ⟨r2, hr2, hg2⟩
          cases hr2
          rw [show (rowToCallData r).tool = r.tool_name from rfl] at hg
          rw [hg2] at hg
          cases hg
  · intro r hf tool hg
    simp only [replay_call, get_call, hf]
    rw [show (rowToCallData r).tool = r.tool_name from rfl, hg]

/-- C3 witness: replaying a stored call whose tool raises yields a normal
(`.ok`) structured outcome embedding the original call and the replay
error — nothing is re-raised. -/
theorem replay_call_c3_witness :
    replay_call [rowR] "r1" regFail =
      .ok ⟨rowToCallData rowR, .error "division by zero"⟩ := by
  have h := (replay_call_c3 [rowR] "r1" regFail).2.2 rowR rfl failTool rfl
  simpa [failTool] using h

/-! ## Claim C6: `trigger` retry budget -/

/-- The attempt loop runs exactly its budget when every attempt fails. -/
theorem sendFrom_all_fail (transport : Nat → Except String Unit)
    (hfail : ∀ i, (transport i).isOk = false) :
    ∀ n i, sendFrom transport i n = (n, false) := by
  intro n
  induction n with
  | zero => intro i; rfl
  | succ n ih =>
    intro i
    cases ht : transport i with
    | ok u =>
      have := hfail i
      rw [ht] at this
      cases this
    | error e =>
      simp [sendFrom, ht, ih (i + 1)]

/-- C6: on a trigger, every matching registration gets exactly one settled
delivery result (`trigger` returns a full list and never raises —
`_send_webhook` swallows every attempt's exception), and a registration
whose transport fails on every attempt has its transport invoked exactly
`retries` times, without aborting the sibling deliveries. -/
theorem trigger_c6 (hooks : List WebhookConfig) (tool_name : String)
    (transports : WebhookConfig → Nat → Except String Unit) :
    (trigger hooks tool_name transports).length = (matchingHooks hooks tool_name).length ∧
    (∀ w ∈ matchingHooks hooks tool_name,
      (∀ i, (transports w i).isOk = false) →
        send_webhook w (transports w) = (w.retries, false) ∧
        send_webhook w (transports w) ∈ trigger hooks tool_name transports) := by
  constructor
  · simp [trigger]
  · intro w hw hfail
    constructor
    · exact sendFrom_all_fail (transports w) hfail w.retries 0
    · exact List.mem_map_of_mem _ hw

/-- C6 witness: one global registration with budget 3 and an
always-failing endpoint is attempted exactly 3 times, the exhausted
failure is only logged, and its settled result is part of `trigger`'s
(normally returned) results. -/
theorem trigger_c6_witness :
    send_webhook hookG (failTransport hookG) = (3, false) ∧
    send_webhook hookG (failTransport hookG) ∈ trigger [hookG] "calc" failTransport :=
  (trigger_c6 [hookG] "calc" failTransport).2 hookG (by decide) (fun _ => rfl)

/-! ## Claim C8: payload signing -/

/-- A SHA-256 digest is never the empty byte list. -/
theorem sha256_ne_nil (msg : List Nat) : sha256 msg ≠ [] := by
  simp [sha256, wordBytes]

/-- The hex encoding of a nonempty byte list is a nonempty string. -/
theorem hexDigest_ne_empty {bytes : List Nat} (h : bytes ≠ []) : hexDigest bytes ≠ "" := by
  cases bytes with
  | nil => exact absurd rfl h
  | cons b rest =>
    intro hc
    have hd := congrArg String.data hc
    simp [hexDigest, hexByte] at hd

/-- Hex digits of values below 16 are lowercase hex characters. -/
theorem hexChar_mem_hexDigits : ∀ n < 16, hexChar n ∈ hexDigits := by decide

/-- Every character of a hex digest is a lowercase hex digit. -/
theorem hexDigest_lower {bytes : List Nat} :
    ∀ c ∈ (hexDigest bytes).toList, c ∈ hexDigits := by
  intro c hc
  have hc' : c ∈ (bytes.map hexByte).flatten := hc
  rw [List.mem_flatten] at hc'
  obtain ⟨l, hl, hcl⟩ := hc'
  rw [List.mem_map] at hl
  obtain ⟨b, _, hb⟩ := hl
  subst hb
  rcases List.mem_cons.mp hcl with h | h
  · subst h
    exact hexChar_mem_hexDigits _ (Nat.mod_lt _ (by omega))
  · rcases List.mem_cons.mp h with h2 | h2
    · subst h2
      exact hexChar_mem_hexDigits _ (Nat.mod_lt _ (by omega))
    · exact absurd h2 (List.not_mem_nil c)

/-- C8 counterexample: a registration whose configured secret is the empty
string (`secret = some ""`) gets NO signature header — `_sign_payload`
treats any falsy secret as absent (`if not secret:`), so "attached iff a
secret is configured" fails for the empty-string secret. -/
theorem buildHeaders_c8_counterexample :
    cfgEmptySecret.secret = some "" ∧
    (buildHeaders cfgEmptySecret (.obj [("event", .str "tool.call")])).lookup
      "X-B2A-Signature" = none :=
  ⟨rfl, rfl⟩

/-- C8 (amended): the signature header is attached iff the registration's
secret is truthy (present and non-empty); when attached, its value is the
lowercase-hex HMAC-SHA256 of the UTF-8 bytes of the JSON-serialized
payload, keyed by the UTF-8 bytes of the secret; with no secret (or an
empty one) the header is entirely absent — never empty, never a
placeholder. -/
theorem buildHeaders_c8_amended (cfg : WebhookConfig) (payload : JValue) :
    (cfg.secret = none → (buildHeaders cfg payload).lookup "X-B2A-Signature" = none) ∧
    (cfg.secret = some "" → (buildHeaders cfg payload).lookup "X-B2A-Signature" = none) ∧
    (∀ s, cfg.secret = some s → s ≠ "" →
      (buildHeaders cfg payload).lookup "X-B2A-Signature" =
        some (hexDigest (hmacSha256 (utf8Bytes s) (utf8Bytes (jsonDumps payload)))) ∧
      ∀ c ∈ (hexDigest (hmacSha256 (utf8Bytes s) (utf8Bytes (jsonDumps payload)))).toList,
        c ∈ hexDigits) := by
  refine ⟨?_, ?_, ?_⟩
  · intro hs
    simp [buildHeaders, sign_payload, hs]
  · intro hs
    simp [buildHeaders, sign_payload, hs]
  · intro s hs hne
    have hsig : sign_payload payload cfg.secret =
        some (hexDigest (hmacSha256 (utf8Bytes s) (utf8Bytes (jsonDumps payload)))) := by
      simp [sign_payload, hs, hne]
    have hnem : hexDigest (hmacSha256 (utf8Bytes s) (utf8Bytes (jsonDumps payload))) ≠ "" := by
      apply hexDigest_ne_empty
      simp only [hmacSha256]
      exact sha256_ne_nil _
    constructor
    · have hb : buildHeaders cfg payload =
          [("Content-Type", "application/json"),
           ("X-B2A-Signature", hexDigest (hmacSha256 (utf8Bytes s) (utf8Bytes (jsonDumps payload))))] := by
        simp [buildHeaders, hsig, hnem]
      rw [hb]
      rfl
    · exact hexDigest_lower

/-- C8 witness: a registration with secret `"k"` gets the signature header
carrying exactly the hex HMAC-SHA256 of the serialized payload. -/
theorem buildHeaders_c8_witness :
    (buildHeaders cfgSecretK (.obj [("event", .str "tool.call")])).lookup "X-B2A-Signature" =
      some (hexDigest (hmacSha256 (utf8Bytes "k")
        (utf8Bytes (jsonDumps (.obj [("event", .str "tool.call")]))))) :=
  ((buildHeaders_c8_amended cfgSecretK (.obj [("event", .str "tool.call")])).2.2 "k" rfl
    (by decide)).1

/-! ## Claim C9: `get_logs` -/

/-- C9 counterexample: with the empty-string filter `some ""` the Python
guard `if tool_name:` is false, so no `WHERE` clause is added and the
query returns records of other tools — "all matching the filter" fails. -/
theorem get_logs_c9_counterexample :
    get_logs [rowA] (some "") 10 = [rowA] ∧ rowA.tool_name ≠ "" :=
  ⟨rfl, by decide⟩

/-- C9 (amended): for every limit, and every filter that is absent or a
NON-EMPTY tool name, `get_logs` returns at most `limit` records, ordered
by timestamp non-increasing (most recent first), all matching the filter
when one is given; equal timestamps are ordered deterministically (the
model fixes SQLite's unspecified tie order as a stable sort over rowid
order, and `get_logs` is a pure function of the table, so repeated
identical queries over unchanged data return the same sequence).  An
empty-string filter is treated by the code as no filter at all. -/
theorem get_logs_c9_amended (table : List Row) (tool_name : Option String) (limit : Nat) :
    (get_logs table tool_name limit).length ≤ limit ∧
    (get_logs table tool_name limit).Sorted tsDesc ∧
    (∀ t, tool_name = some t → t ≠ "" →
      ∀ r ∈ get_logs table tool_name limit, r.tool_name = t) := by
  refine ⟨List.length_take_le _ _, ?_, ?_⟩
  · exact List.Pairwise.sublist (List.take_sublist _ _) (List.sorted_insertionSort tsDesc _)
  · intro t ht hne r hr
    subst ht
    simp only [get_logs, if_neg hne] at hr
    have hr1 := List.mem_of_mem_take hr
    have hr2 := (List.perm_insertionSort tsDesc _).mem_iff.mp hr1
    have hr3 := List.mem_filter.mp hr2
    simpa using hr3.2

/-- C9 witness: querying with filter `"t"` over a table holding calls of
tools `t` and `u` returns only records of tool `t`. -/
theorem get_logs_c9_witness :
    (get_logs [rowA, rowC] (some "t") 5).all (fun r => r.tool_name == "t") = true := by
  rw [List.all_eq_true]
  intro r hrm
  have h := (get_logs_c9_amended [rowA, rowC] (some "t") 5).2.2 "t" rfl (by decide) r hrm
  simpa using h

/-! ## Facts about the polling tail -/

/-- A list's optional last element is a member. -/
theorem getLast?_mem_list {α : Type} : ∀ {l : List α} {a : α}, l.getLast? = some a → a ∈ l := by
  intro l
  induction l with
  | nil => intro a h; cases h
  | cons x rest ih =>
    intro a h
    cases rest with
    | nil =>
      simp [List.getLast?] at h
      subst h
      exact List.mem_cons_self _ _
    | cons y ys =>
      rw [List.getLast?_cons_cons] at h
      exact List.mem_cons_of_mem _ (ih h)

/-- Every row one polling query returns is in the table, above the
watermark, and matching a truthy filter. -/
theorem watchQuery_subset {table : List Row} {w : Timestamp} {tn : Option String} {r : Row}
    (hr : r ∈ watchQuery table w tn) : r ∈ table ∧ w < r.timestamp := by
  have hr1 := (List.perm_insertionSort tsAsc _).mem_iff.mp hr
  rcases tn with _ | t
  · have h := List.mem_filter.mp hr1
    exact ⟨h.1, by simpa using h.2⟩
  · by_cases ht : t = ""
    · simp only [watchQuery, if_pos ht] at hr1
      have h := List.mem_filter.mp hr1
      exact ⟨h.1, by simpa using h.2⟩
    · simp only [watchQuery, if_neg ht] at hr1
      have h2 := List.mem_filter.mp hr1
      have h := List.mem_filter.mp h2.1
      exact ⟨h.1, by simpa using h.2⟩

/-- Each polling batch is sorted ascending by timestamp. -/
theorem watchQuery_sorted (table : List Row) (w : Timestamp) (tn : Option String) :
    (watchQuery table w tn).Sorted tsAsc :=
  List.sorted_insertionSort tsAsc _

/-- Functions `nextWatermark` and `lastYieldTs` are the same recurrence. -/
theorem nextWatermark_eq_lastYieldTs (w : Timestamp) (batch : List Row) :
    nextWatermark w batch = lastYieldTs w batch := rfl

/-- In a sorted batch, every row's timestamp is at most the batch's new
watermark (the last row's timestamp). -/
theorem mem_le_nextWatermark : ∀ {batch : List Row}, batch.Sorted tsAsc →
    ∀ {r : Row}, r ∈ batch → ∀ w, r.timestamp ≤ nextWatermark w batch := by
  intro batch
  induction batch with
  | nil =>
    intro _ r hr
    exact absurd hr (List.not_mem_nil r)
  | cons x rest ih =>
    intro hs r hr w
    have hs' := List.sorted_cons.mp hs
    cases rest with
    | nil =>
      have hx : r = x := by simpa using hr
      subst hx
      simp [nextWatermark, List.getLast?]
    | cons y ys =>
      have hnw : nextWatermark w (x :: y :: ys) = nextWatermark w (y :: ys) := by
        simp [nextWatermark, List.getLast?_cons_cons]
      rw [hnw]
      rcases List.mem_cons.mp hr with h | h
      · subst h
        cases hgl : (y :: ys).getLast? with
        | none => simp at hgl
        | some l =>
          have hlm : l ∈ y :: ys := getLast?_mem_list hgl
          simp only [nextWatermark, hgl]
          exact hs'.1 l hlm
      · exact ih hs'.2 h w

/-- The watermark never decreases across a batch whose rows all lie
strictly above it. -/
theorem le_nextWatermark {w : Timestamp} {batch : List Row}
    (hgt : ∀ r ∈ batch, w < r.timestamp) : w ≤ nextWatermark w batch := by
  cases hgl : batch.getLast? with
  | none => simp [nextWatermark, hgl]
  | some r =>
    have hm : r ∈ batch := getLast?_mem_list hgl
    simp only [nextWatermark, hgl]
    exact le_of_lt (hgt r hm)

/-- Every record a run yields lies strictly above the run's starting
watermark. -/
theorem watchRun_yields_gt (tn : Option String) : ∀ (tables : List (List Row)) (w : Timestamp),
    ∀ r ∈ joinYields (watchRun tn w tables), w < r.timestamp := by
  intro tables
  induction tables with
  | nil =>
    intro w r hr
    simp [watchRun, joinYields] at hr
  | cons table rest ih =>
    intro w r hr
    simp only [watchRun, joinYields, List.map_cons, List.flatten_cons] at hr
    rcases List.mem_append.mp hr with h | h
    · exact (watchQuery_subset h).2
    · have h2 := ih (nextWatermark w (watchQuery table w tn)) r h
      have h3 : w ≤ nextWatermark w (watchQuery table w tn) :=
        le_nextWatermark (fun x hx => (watchQuery_subset hx).2)
      exact lt_of_le_of_lt h3 h2

/-- Every record a run yields comes from one of the snapshots. -/
theorem watchRun_yields_mem (tn : Option String) : ∀ (tables : List (List Row)) (w : Timestamp),
    ∀ r ∈ joinYields (watchRun tn w tables), ∃ table ∈ tables, r ∈ table := by
  intro tables
  induction tables with
  | nil =>
    intro w r hr
    simp [watchRun, joinYields] at hr
  | cons table rest ih =>
    intro w r hr
    simp only [watchRun, joinYields, List.map_cons, List.flatten_cons] at hr
    rcases List.mem_append.mp hr with h | h
    · exact ⟨table, List.mem_cons_self _ _, (watchQuery_subset h).1⟩
    · obtain ⟨tbl, htbl, hrt⟩ := ih _ r h
      exact ⟨tbl, List.mem_cons_of_mem _ htbl, hrt⟩

/-- The yields of a run are globally non-decreasing in timestamp. -/
theorem watchRun_pairwise (tn : Option String) : ∀ (tables : List (List Row)) (w : Timestamp),
    (joinYields (watchRun tn w tables)).Pairwise tsAsc := by
  intro tables
  induction tables with
  | nil =>
    intro w
    simp [watchRun, joinYields]
  | cons table rest ih =>
    intro w
    simp only [watchRun, joinYields, List.map_cons, List.flatten_cons]
    rw [List.pairwise_append]
    refine ⟨watchQuery_sorted table w tn, ih _, ?_⟩
    intro a ha b hb
    have ha' : a.timestamp ≤ nextWatermark w (watchQuery table w tn) :=
      mem_le_nextWatermark (watchQuery_sorted table w tn) ha w
    have hb' := watchRun_yields_gt tn rest (nextWatermark w (watchQuery table w tn)) b hb
    exact le_of_lt (lt_of_le_of_lt ha' hb')

/-- Function `lastYieldTs` splits over append. -/
theorem lastYieldTs_append (d : Timestamp) (A B : List Row) :
    lastYieldTs d (A ++ B) = lastYieldTs (lastYieldTs d A) B := by
  cases hB : B.getLast? with
  | none =>
    have hBnil : B = [] := by
      cases B with
      | nil => rfl
      | cons y ys => simp at hB
    subst hBnil
    simp [lastYieldTs]
  | some r =>
    simp [lastYieldTs, List.getLast?_append, hB]

/-- Splitting a run at any iteration: the watermark in force there is the
timestamp of the last record yielded before it (or the starting watermark
when nothing was yielded yet), the batch is sorted, and every batch row
lies strictly above that watermark. -/
theorem watchRun_split (tn : Option String) : ∀ (tables : List (List Row)) (w0 : Timestamp)
    (pre : List (Timestamp × List Row)) (w : Timestamp) (batch : List Row)
    (post : List (Timestamp × List Row)),
    watchRun tn w0 tables = pre ++ (w, batch) :: post →
    w = lastYieldTs w0 (joinYields pre) ∧ batch.Sorted tsAsc ∧
      ∀ r ∈ batch, w < r.timestamp := by
  intro tables
  induction tables with
  | nil =>
    intro w0 pre w batch post h
    simp [watchRun] at h
  | cons table rest ih =>
    intro w0 pre w batch post h
    simp only [watchRun] at h
    cases pre with
    | nil =>
      rw [List.nil_append] at h
      injection h with h1 h2
      injection h1 with hw hb
      subst hw
      subst hb
      exact ⟨by simp [joinYields, lastYieldTs], watchQuery_sorted _ _ _,
        fun r hr => (watchQuery_subset hr).2⟩
    | cons p pre' =>
      rw [List.cons_append] at h
      injection h with h1 h2
      obtain ⟨hw, hs, hgt⟩ := ih _ pre' w batch post h2
      subst h1
      refine ⟨?_, hs, hgt⟩
      rw [hw]
      have hjy : joinYields ((w0, watchQuery table w0 tn) :: pre') =
          watchQuery table w0 tn ++ joinYields pre' := by
        simp [joinYields]
      rw [hjy, lastYieldTs_append]
      rfl

/-- Folding `maxStep` from a present accumulator is a plain max fold. -/
theorem foldl_maxStep_some : ∀ (l : List Row) (t : Timestamp),
    l.foldl maxStep (some t) = some (l.foldl (fun a r => max a r.timestamp) t) := by
  intro l
  induction l with
  | nil => intro t; rfl
  | cons r rest ih =>
    intro t
    simp only [List.foldl_cons, maxStep]
    exact ih (max t r.timestamp)

/-- The start value is below the max fold. -/
theorem le_foldl_max : ∀ (l : List Row) (t : Timestamp),
    t ≤ l.foldl (fun a r => max a r.timestamp) t := by
  intro l
  induction l with
  | nil => intro t; exact le_rfl
  | cons r rest ih =>
    intro t
    exact le_trans (le_max_left _ _) (ih (max t r.timestamp))

/-- Every element is below the max fold. -/
theorem mem_le_foldl_max : ∀ (l : List Row) (t : Timestamp), ∀ r ∈ l,
    r.timestamp ≤ l.foldl (fun a r => max a r.timestamp) t := by
  intro l
  induction l with
  | nil =>
    intro t r hr
    exact absurd hr (List.not_mem_nil r)
  | cons x rest ih =>
    intro t r hr
    rcases List.mem_cons.mp hr with h | h
    · subst h
      exact le_trans (le_max_right _ _) (le_foldl_max rest (max t r.timestamp))
    · exact ih (max t x.timestamp) r h

/-- The max fold returns the start value or some element's timestamp. -/
theorem foldl_max_mem : ∀ (l : List Row) (t : Timestamp),
    l.foldl (fun a r => max a r.timestamp) t = t ∨
      l.foldl (fun a r => max a r.timestamp) t ∈ l.map Row.timestamp := by
  intro l
  induction l with
  | nil => intro t; exact Or.inl rfl
  | cons x rest ih =>
    intro t
    simp only [List.foldl_cons]
    rcases ih (max t x.timestamp) with h | h
    · rcases max_choice t x.timestamp with hm | hm
      · exact Or.inl (by rw [h, hm])
      · refine Or.inr ?_
        rw [h, hm]
        simp
    · exact Or.inr (List.mem_cons_of_mem _ h)

/-- On a nonempty store whose timestamps are nonempty text (as ISO-8601
timestamps are), the starting watermark of `watch_logs` is
`MAX(timestamp)`: an upper bound of all stored timestamps and itself a
stored timestamp. -/
theorem initWatermark_spec (init : List Row) (hne : init ≠ [])
    (hts : ∀ r ∈ init, r.timestamp ≠ []) :
    (∀ r ∈ init, r.timestamp ≤ initWatermark init) ∧
    initWatermark init ∈ init.map Row.timestamp := by
  cases init with
  | nil => exact absurd rfl hne
  | cons r rest =>
    have hM : maxTimestamp (r :: rest) =
        some (rest.foldl (fun a x => max a x.timestamp) r.timestamp) := by
      simp only [maxTimestamp, List.foldl_cons, maxStep]
      exact foldl_maxStep_some rest r.timestamp
    have hMmem : rest.foldl (fun a x => max a x.timestamp) r.timestamp ∈
        (r :: rest).map Row.timestamp := by
      rcases foldl_max_mem rest r.timestamp with h | h
      · rw [h]
        simp
      · exact List.mem_cons_of_mem _ h
    have hMne : rest.foldl (fun a x => max a x.timestamp) r.timestamp ≠ [] := by
      rw [List.mem_map] at hMmem
      obtain ⟨x, hx, he⟩ := hMmem
      rw [← he]
      exact hts x hx
    have hiw : initWatermark (r :: rest) =
        rest.foldl (fun a x => max a x.timestamp) r.timestamp := by
      simp [initWatermark, hM, hMne]
    rw [hiw]
    constructor
    · intro x hx
      rcases List.mem_cons.mp hx with h | h
      · subst h
        exact le_foldl_max rest x.timestamp
      · exact mem_le_foldl_max rest r.timestamp x h
    · rw [← hiw]
      rw [hiw]
      exact hMmem

/-! ## Claim C5: `watch_logs` ordering and watermark -/

/-- C5: over any finite run of the polling loop, (1) the yielded records
are globally non-decreasing in timestamp; (2) at every iteration, the
watermark in force is the timestamp of the last-yielded record (the
starting watermark while nothing has been yielded), and every record the
iteration yields has a timestamp strictly greater than that watermark;
(3) on a nonempty store (with nonempty ISO timestamp text) the starting
watermark is the maximum timestamp present at subscription time. -/
theorem watch_logs_c5 (tool_name : Option String) (init : List Row)
    (tables : List (List Row)) :
    (joinYields (watch_logs tool_name init tables)).Pairwise tsAsc ∧
    (∀ pre w batch post, watch_logs tool_name init tables = pre ++ (w, batch) :: post →
      w = lastYieldTs (initWatermark init) (joinYields pre) ∧
      ∀ r ∈ batch, w < r.timestamp) ∧
    (init ≠ [] → (∀ r ∈ init, r.timestamp ≠ []) →
      (∀ r ∈ init, r.timestamp ≤ initWatermark init) ∧
      initWatermark init ∈ init.map Row.timestamp) := by
  refine ⟨watchRun_pairwise tool_name tables (initWatermark init), ?_, initWatermark_spec init⟩
  intro pre w batch post h
  obtain ⟨hw, _, hgt⟩ := watchRun_split tool_name tables (initWatermark init) pre w batch post h
  exact ⟨hw, hgt⟩

/-- C5 witness: a concrete two-poll run.  Subscribing over `[rowA]` sets
the watermark to `rowA`'s timestamp (the max present); the first poll over
`[rowA, rowB]` yields exactly `rowB`, strictly above that watermark. -/
theorem watch_logs_c5_witness :
    rowB.timestamp ∈ [rowB].map Row.timestamp ∧
    initWatermark [rowA] = lastYieldTs (initWatermark [rowA]) (joinYields []) ∧
    (∀ r ∈ [rowB], initWatermark [rowA] < r.timestamp) := by
  have h := (watch_logs_c5 none [rowA] [[rowA, rowB]]).2.1 [] (initWatermark [rowA]) [rowB]
    []
    (by rfl)
  exact ⟨by simp, h.1, h.2⟩

/-! ## Claim C10: the tail's same-timestamp tiebreak -/

/-- The rows a polling query returns are a permutation of a sublist of the
table. -/
theorem watchQuery_perm_sublist (table : List Row) (w : Timestamp) (tn : Option String) :
    ∃ rows, (watchQuery table w tn).Perm rows ∧ rows.Sublist table := by
  rcases tn with _ | t
  · exact ⟨_, List.perm_insertionSort tsAsc _, List.filter_sublist _⟩
  · by_cases ht : t = ""
    · simp only [watchQuery, if_pos ht]
      exact ⟨_, List.perm_insertionSort tsAsc _, List.filter_sublist _⟩
    · simp only [watchQuery, if_neg ht]
      exact ⟨_, List.perm_insertionSort tsAsc _,
        (List.filter_sublist _).trans (List.filter_sublist _)⟩

/-- While the watermark is at or above a record's timestamp, the loop can
never yield that record (nor any record with its `call_id`), because
every fetch demands a strictly greater timestamp and the watermark never
decreases. -/
theorem watchRun_skip_of_le (tn : Option String) : ∀ (tables : List (List Row))
    (w0 : Timestamp) (rc : Row),
    rc.timestamp ≤ w0 →
    (∀ tbl ∈ tables, ∀ x ∈ tbl, x.call_id = rc.call_id → x.timestamp = rc.timestamp) →
    ∀ y ∈ joinYields (watchRun tn w0 tables), y.call_id ≠ rc.call_id := by
  intro tables
  induction tables with
  | nil =>
    intro w0 rc _ _ y hy
    simp [watchRun, joinYields] at hy
  | cons table rest ih =>
    intro w0 rc hle hagree y hy
    simp only [watchRun, joinYields, List.map_cons, List.flatten_cons] at hy
    rcases List.mem_append.mp hy with h | h
    · intro he
      have hmem := (watchQuery_subset h).1
      have hts := hagree table (List.mem_cons_self _ _) y hmem he
      have hgt := (watchQuery_subset h).2
      rw [hts] at hgt
      exact absurd hgt (not_lt.mpr hle)
    · have hw1 : w0 ≤ nextWatermark w0 (watchQuery table w0 tn) :=
        le_nextWatermark (fun x hx => (watchQuery_subset hx).2)
      exact ih _ rc (le_trans hle hw1)
        (fun tbl htbl => hagree tbl (List.mem_cons_of_mem _ htbl)) y h

/-- A record first present from iteration `j` on, whose timestamp is at or
below the watermark in force at iteration `j`, is never yielded. -/
theorem watchRun_skip (tn : Option String) : ∀ (tables : List (List Row)) (w0 : Timestamp)
    (j : Nat) (rc : Row),
    rc.timestamp ≤ wmAt tn w0 tables j →
    (∀ k, k < j → ∀ x ∈ tables.getD k [], x.call_id ≠ rc.call_id) →
    (∀ tbl ∈ tables, ∀ x ∈ tbl, x.call_id = rc.call_id → x.timestamp = rc.timestamp) →
    ∀ y ∈ joinYields (watchRun tn w0 tables), y.call_id ≠ rc.call_id := by
  intro tables
  induction tables with
  | nil =>
    intro w0 j rc _ _ _ y hy
    simp [watchRun, joinYields] at hy
  | cons table rest ih =>
    intro w0 j rc hle habsent hagree y hy
    cases j with
    | zero => exact watchRun_skip_of_le tn (table :: rest) w0 rc hle hagree y hy
    | succ j =>
      simp only [watchRun, joinYields, List.map_cons, List.flatten_cons] at hy
      rcases List.mem_append.mp hy with h | h
      · intro he
        exact habsent 0 (Nat.succ_pos j) y (by simpa using (watchQuery_subset h).1) he
      · refine ih _ j rc hle ?_ ?_ y h
        · intro k hk x hx
          exact habsent (k + 1) (Nat.succ_lt_succ hk) x (by simpa using hx)
        · intro tbl htbl
          exact hagree tbl (List.mem_cons_of_mem _ htbl)

/-- Over append-only snapshots with primary-key-unique, immutable rows, no
`call_id` is ever yielded twice. -/
theorem watchRun_nodup_ids (tn : Option String) : ∀ (tables : List (List Row)) (w0 : Timestamp),
    (∀ tbl ∈ tables, (tbl.map Row.call_id).Nodup) →
    (∀ t1 ∈ tables, ∀ t2 ∈ tables, ∀ x ∈ t1, ∀ y ∈ t2,
      x.call_id = y.call_id → x.timestamp = y.timestamp) →
    ((joinYields (watchRun tn w0 tables)).map Row.call_id).Nodup := by
  intro tables
  induction tables with
  | nil =>
    intro w0 _ _
    simp [watchRun, joinYields]
  | cons table rest ih =>
    intro w0 hnd hagree
    simp only [watchRun, joinYields, List.map_cons, List.flatten_cons, List.map_append]
    rw [List.nodup_append]
    refine ⟨?_, ?_, ?_⟩
    · obtain ⟨rows, hperm, hsub⟩ := watchQuery_perm_sublist table w0 tn
      have h1 : (rows.map Row.call_id).Nodup :=
        (hsub.map Row.call_id).nodup (hnd table (List.mem_cons_self _ _))
      exact ((hperm.map Row.call_id).nodup_iff).mpr h1
    · refine ih _ (fun tbl htbl => hnd tbl (List.mem_cons_of_mem _ htbl)) ?_
      intro t1 ht1 t2 ht2 x hx y hy
      exact hagree t1 (List.mem_cons_of_mem _ ht1) t2 (List.mem_cons_of_mem _ ht2) x hx y hy
    · intro a ha hb
      rw [List.mem_map] at ha hb
      obtain ⟨x, hx, hxa⟩ := ha
      obtain ⟨y, hy, hya⟩ := hb
      have hxmem := (watchQuery_subset hx).1
      have hxle : x.timestamp ≤ nextWatermark w0 (watchQuery table w0 tn) :=
        mem_le_nextWatermark (watchQuery_sorted table w0 tn) hx w0
      have hygt := watchRun_yields_gt tn rest _ y hy
      obtain ⟨tbl, htbl, hyt⟩ := watchRun_yields_mem tn rest _ y hy
      have hts : x.timestamp = y.timestamp :=
        hagree table (List.mem_cons_self _ _) tbl (List.mem_cons_of_mem _ htbl) x hxmem y hyt
          (by rw [hxa, hya])
      rw [hts] at hxle
      exact absurd hygt (not_lt.mpr hxle)

/-- C10: the tail resolves the same-timestamp tiebreak by skipping, never
double-delivering.  (1) A record first inserted at iteration `j` whose
timestamp does not exceed the watermark then in force — in particular one
equal to it — is never yielded.  (2) Across any run over append-only,
primary-key-unique, immutable snapshots, no record (identified by its
`call_id`) is yielded twice. -/
theorem watch_logs_c10 (tool_name : Option String) (w0 : Timestamp)
    (tables : List (List Row)) :
    (∀ (j : Nat) (rc : Row),
      rc.timestamp ≤ wmAt tool_name w0 tables j →
      (∀ k, k < j → ∀ x ∈ tables.getD k [], x.call_id ≠ rc.call_id) →
      (∀ tbl ∈ tables, ∀ x ∈ tbl, x.call_id = rc.call_id → x.timestamp = rc.timestamp) →
      ∀ y ∈ joinYields (watchRun tool_name w0 tables), y.call_id ≠ rc.call_id) ∧
    ((∀ tbl ∈ tables, (tbl.map Row.call_id).Nodup) →
     (∀ t1 ∈ tables, ∀ t2 ∈ tables, ∀ x ∈ t1, ∀ y ∈ t2,
        x.call_id = y.call_id → x.timestamp = y.timestamp) →
     ((joinYields (watchRun tool_name w0 tables)).map Row.call_id).Nodup) :=
  ⟨fun j rc => watchRun_skip tool_name tables w0 j rc,
   watchRun_nodup_ids tool_name tables w0⟩

/-- C10 witness: `rowD` shares `rowA`'s timestamp and first appears in the
second snapshot, after the first poll already advanced the watermark to
that timestamp — `rowD` is never yielded. -/
theorem watch_logs_c10_witness :
    (joinYields (watchRun none ts0 [[rowA], [rowA, rowD]])).all
      (fun y => !(y.call_id == rowD.call_id)) = true := by
  rw [List.all_eq_true]
  intro y hy
  have h := (watch_logs_c10 none ts0 [[rowA], [rowA, rowD]]).1 1 rowD
    (by decide) (by decide) (by decide) y hy
  simpa using h
